import Mathlib

/-!
Shallow embedding of the cache simulator in src/cachesim.c.

The C program models a set-associative cache: `S = 2^s` sets of `E` lines
each, an address decomposed into block-offset bits (`b`), set-index bits
(`s`) and a tag, with a recency-rank field `lru` on every line.  The
functions embedded here are `makecache`, `access_cache`, `find_lru`,
`lru_update`, the counter updates of `access_cache`, the event dispatch of
`runsim`, and the configuration check of `main`.
-/

/-- A cache line (struct `line`, cachesim.c lines 20-24): valid bit, tag
bits, and the LRU recency field.  The C `int valid` is 0/1, hence `Bool`;
`tag` is an `unsigned long`; `lru` starts at 0 and is only ever
incremented or reset, hence `Nat`. -/
structure Line where
  valid : Bool
  tag : Nat
  lru : Nat
deriving DecidableEq, Repr

/-- The default line used by total list indexing; matches the all-zero
initialisation in `makecache` (lines 198-202). -/
def defLine : Line := { valid := false, tag := 0, lru := 0 }

/-- Total indexing into a list of lines (C indexes `lines[i]` only in
range; out-of-range reads return `defLine`). -/
def getLine (ls : List Line) (i : Nat) : Line := ls.getD i defLine

/-- The cache (struct `cache`, cachesim.c lines 30-36): the sets (each a
list of lines standing for the C `line*` array), and the parameters
`s`, `E`, `b`, `S`. -/
structure Cache where
  sets : List (List Line)
  s : Nat
  E : Nat
  b : Nat
  S : Nat
deriving DecidableEq, Repr

/-- Outcome of one access: the three branches of `access_cache`. -/
inductive Outcome where
  | Hit
  | MissFill
  | MissEvict
deriving DecidableEq, Repr

/-- First index in a list of lines satisfying a predicate, if any.  This
is the common shape of the three ascending scans in `access_cache` and
`find_lru`. -/
def findIdxAux (p : Line → Bool) : List Line → Option Nat
  | [] => none
  | l :: ls => if p l then some 0 else (findIdxAux p ls).map (· + 1)

/-- The hit scan of `access_cache` (lines 271-280): first line that is
valid and whose tag equals the block tag. -/
def findHit (tg : Nat) (lines : List Line) : Option Nat :=
  findIdxAux (fun l => l.valid && l.tag == tg) lines

/-- The empty-line scan of `access_cache` (lines 282-293): first line that
is not valid. -/
def findEmpty (lines : List Line) : Option Nat :=
  findIdxAux (fun l => !l.valid) lines

/-- `find_lru` (cachesim.c lines 309-319): `lru_idx` starts at 0 and the
scan breaks at the first line whose `lru` equals `E - 1`; if no line
matches, the initial 0 is returned. -/
def find_lru (E : Nat) (lines : List Line) : Nat :=
  (findIdxAux (fun l => l.lru == E - 1) lines).getD 0

/-- The bump step of `lru_update` (lines 323-329): a valid line whose
`lru` is strictly below the touched line's previous `lru` is aged by
one; every other line is left alone. -/
def bump (p : Nat) (l : Line) : Line :=
  if l.valid && decide (l.lru < p) then { l with lru := l.lru + 1 } else l

/-- `lru_update` (cachesim.c lines 321-331) on the set `lines`, with the
touched line at index `t`: age every valid line strictly younger than the
touched line's previous recency, then set the touched line's `lru` to 0.
(In the C loop `cache_line->lru` is stable: the touched line never
satisfies `lru < cache_line->lru`, so the comparison value read each
iteration is its pre-loop value.) -/
def lru_update (lines : List Line) (t : Nat) : List Line :=
  (lines.map (bump (getLine lines t).lru)).set t { getLine lines t with lru := 0 }

/-- Set-index computation of `access_cache` (line 265):
`(*address >> c->b) & ((1UL << c->s) - 1)`. -/
def setIndex (c : Cache) (a : Nat) : Nat :=
  (a >>> c.b) &&& (2 ^ c.s - 1)

/-- Tag computation of `access_cache` (line 268): `*address >> (c->s + c->b)`. -/
def blockTag (c : Cache) (a : Nat) : Nat :=
  a >>> (c.s + c.b)

/-- The per-set body of `access_cache` (cachesim.c lines 271-306), acting
on the target set's lines: hit scan, then empty-line scan (mark valid,
store tag), then eviction via `find_lru` (overwrite tag); each branch ends
in `lru_update` on the touched line. -/
def accessLines (E : Nat) (tg : Nat) (lines : List Line) : Outcome × List Line :=
  match findHit tg lines with
  | some i => (Outcome.Hit, lru_update lines i)
  | none =>
    match findEmpty lines with
    | some i =>
      (Outcome.MissFill,
        lru_update (lines.set i { getLine lines i with valid := true, tag := tg }) i)
    | none =>
      (Outcome.MissEvict,
        lru_update
          (lines.set (find_lru E lines)
            { getLine lines (find_lru E lines) with tag := tg })
          (find_lru E lines))

/-- The lines of the set an address maps to. -/
def targetLines (c : Cache) (a : Nat) : List Line :=
  c.sets.getD (setIndex c a) []

/-- `access_cache` (cachesim.c lines 260-307): decompose the address,
operate on the target set, and write the updated set back.  All mutation
of the C function happens inside `sets[cache_set]`. -/
def access (c : Cache) (a : Nat) : Outcome × Cache :=
  ((accessLines c.E (blockTag c a) (targetLines c a)).1,
   { c with sets := c.sets.set (setIndex c a) (accessLines c.E (blockTag c a) (targetLines c a)).2 })

/-- The counter updates of `access_cache` (lines 276, 289, 300-301):
a hit increments `hits`; a fill increments `misses`; an eviction
increments `misses` and `evictions`. -/
def applyCounters (o : Outcome) (hits misses evictions : Nat) : Nat × Nat × Nat :=
  match o with
  | Outcome.Hit => (hits + 1, misses, evictions)
  | Outcome.MissFill => (hits, misses + 1, evictions)
  | Outcome.MissEvict => (hits, misses + 1, evictions + 1)

/-- `makecache` (cachesim.c lines 157-205), allocation success assumed:
`S = 2^s` sets of `E` lines, every line zero-initialised. -/
def makecache (s E b : Nat) : Cache :=
  { sets := List.replicate (2 ^ s) (List.replicate E defLine),
    s := s, E := E, b := b, S := 2 ^ s }

/-- Run a list of addresses through `access`, threading the cache state
(the access sequence `runsim` performs, abstracted from file parsing). -/
def runList (c : Cache) : List Nat → Cache
  | [] => c
  | a :: as => runList (access c a).2 as

/-- The cache state reached from a fresh `makecache s E b` after a list of
accesses. -/
def simCache (s E b : Nat) (as : List Nat) : Cache :=
  runList (makecache s E b) as

/-- Trace event kinds read by `runsim` (cachesim.c lines 227-252). -/
inductive Op where
  | load
  | store
  | modify
  | other
deriving DecidableEq, Repr

/-- The per-event dispatch of `runsim` (cachesim.c lines 229-252): `L` and
`S` call `access_cache` once, `M` calls it twice on the same address, any
other operation leaves the cache untouched.  Returns the outcomes in
order together with the resulting cache. -/
def stepEvent (c : Cache) (op : Op) (a : Nat) : List Outcome × Cache :=
  match op with
  | Op.load => ([(access c a).1], (access c a).2)
  | Op.store => ([(access c a).1], (access c a).2)
  | Op.modify =>
      ([(access c a).1, (access (access c a).2 a).1], (access (access c a).2 a).2)
  | Op.other => ([], c)

/-- The configuration-relevant part of the argument check in `main`
(cachesim.c line 98): the run proceeds to `makecache` exactly when none of
`s`, `E`, `b` is zero (the remaining conjuncts concern the help flag and
the trace-file path).  The values are C `int`s produced by `atoi`, hence
`Int`. -/
def config_accepted (s E b : Int) : Bool :=
  !(s == 0 || E == 0 || b == 0)

/-- The rejection condition exactly as the specification's claim words it:
`E < 1` or `s + b > 64` must fail with a configuration error. -/
def claim_rejects (s E b : Int) : Prop := E < 1 ∨ s + b > 64

/-- The acceptance condition exactly as the specification's claim words
it: every triple with `s ≥ 0`, `b ≥ 0`, `E ≥ 1` and `s + b ≤ 64` is
accepted. -/
def claim_accepts (s E b : Int) : Prop := 0 ≤ s ∧ 0 ≤ b ∧ 1 ≤ E ∧ s + b ≤ 64

/-- The recency values of the valid lines of one set. -/
def validRecencies (st : List Line) : List Nat :=
  (st.filter (fun l => l.valid)).map (fun l => l.lru)

/-- The recency invariant exactly as the specification states it: in every
set, the recency values of the valid lines are exactly
`{0, 1, ..., valid count - 1}`, each occurring once. -/
def RecencyInvariant (c : Cache) : Prop :=
  ∀ st ∈ c.sets, (validRecencies st).Perm (List.range (validRecencies st).length)

instance (c : Cache) : Decidable (RecencyInvariant c) :=
  inferInstanceAs (Decidable (∀ st ∈ c.sets, (validRecencies st).Perm (List.range (validRecencies st).length)))

/-- The maximum recency among the valid lines of a set (0 if none). -/
def maxRecency (st : List Line) : Nat :=
  (validRecencies st).foldr max 0

/-- The eviction candidate as the specification describes it: the first
line (scanning from index 0) that is valid and carries the maximum
recency of the set. -/
def lruSpecIdx (st : List Line) : Nat :=
  (findIdxAux (fun l => l.valid && l.lru == maxRecency st) st).getD 0

/-- Well-formedness of a cache: `S = 2^s`, exactly `S` sets, each of
exactly `E` lines.  `makecache` establishes this and `access` preserves
it. -/
def WF (c : Cache) : Prop :=
  c.S = 2 ^ c.s ∧ c.sets.length = c.S ∧ ∀ st ∈ c.sets, st.length = c.E

instance (c : Cache) : Decidable (WF c) :=
  inferInstanceAs (Decidable (c.S = 2 ^ c.s ∧ c.sets.length = c.S ∧ ∀ st ∈ c.sets, st.length = c.E))

/-- Every line of every set has recency 0. -/
def allLruZero (c : Cache) : Prop :=
  ∀ st ∈ c.sets, ∀ l ∈ st, l.lru = 0

instance (c : Cache) : Decidable (allLruZero c) :=
  inferInstanceAs (Decidable (∀ st ∈ c.sets, ∀ l ∈ st, l.lru = 0))

/-! ### List indexing lemmas -/

theorem getD_set_self {α : Type} {ls : List α} {i : Nat} {x d : α} (h : i < ls.length) :
    (ls.set i x).getD i d = x := by
  simp [List.getD_eq_getElem?_getD, List.getElem?_set_self h]

theorem getD_set_ne {α : Type} {ls : List α} {i k : Nat} {x d : α} (h : i ≠ k) :
    (ls.set i x).getD k d = ls.getD k d := by
  simp [List.getD_eq_getElem?_getD, List.getElem?_set_ne h]

theorem getD_oob {α : Type} {ls : List α} {i : Nat} {d : α} (h : ls.length ≤ i) :
    ls.getD i d = d := by
  simp [List.getD_eq_getElem?_getD, List.getElem?_eq_none h]

theorem getD_mem {α : Type} {ls : List α} {i : Nat} {d : α} (h : i < ls.length) :
    ls.getD i d ∈ ls := by
  rw [List.getD_eq_getElem?_getD, List.getElem?_eq_getElem h]
  exact List.getElem_mem h

theorem set_getD_self {α : Type} (ls : List α) (i : Nat) (d : α) :
    ls.set i (ls.getD i d) = ls := by
  by_cases h : i < ls.length
  · apply List.ext_getElem?
    intro j
    by_cases hj : i = j
    · subst hj
      rw [List.getElem?_set_self h, List.getD_eq_getElem?_getD, List.getElem?_eq_getElem h]
      rfl
    · rw [List.getElem?_set_ne hj]
  · exact List.set_eq_of_length_le (Nat.le_of_not_lt h)

theorem getLine_set_self {ls : List Line} {i : Nat} {x : Line} (h : i < ls.length) :
    getLine (ls.set i x) i = x := getD_set_self h

theorem getLine_set_ne {ls : List Line} {i k : Nat} {x : Line} (h : i ≠ k) :
    getLine (ls.set i x) k = getLine ls k := getD_set_ne h

theorem getLine_oob {ls : List Line} {i : Nat} (h : ls.length ≤ i) :
    getLine ls i = defLine := getD_oob h

theorem getLine_mem {ls : List Line} {i : Nat} (h : i < ls.length) :
    getLine ls i ∈ ls := getD_mem h

theorem getLine_cons_zero (x : Line) (ls : List Line) : getLine (x :: ls) 0 = x := rfl

theorem getLine_cons_succ (x : Line) (ls : List Line) (i : Nat) :
    getLine (x :: ls) (i + 1) = getLine ls i := rfl

theorem getLine_map {f : Line → Line} (hf : f defLine = defLine) (ls : List Line) (i : Nat) :
    getLine (ls.map f) i = f (getLine ls i) := by
  unfold getLine
  rw [List.getD_eq_getElem?_getD, List.getD_eq_getElem?_getD, List.getElem?_map]
  cases h : ls[i]? with
  | none => simp [hf]
  | some l => simp

theorem getLine_exists_of_mem {ls : List Line} {l : Line} (h : l ∈ ls) :
    ∃ i, i < ls.length ∧ getLine ls i = l := by
  obtain ⟨i, hi, rfl⟩ := List.getElem_of_mem h
  refine ⟨i, hi, ?_⟩
  rw [getLine, List.getD_eq_getElem?_getD, List.getElem?_eq_getElem hi]
  rfl

/-! ### Lemmas about the first-index scan -/

theorem findIdxAux_cons_true {p : Line → Bool} {x : Line} (hp : p x = true) (ls : List Line) :
    findIdxAux p (x :: ls) = some 0 := by
  simp [findIdxAux, hp]

theorem findIdxAux_cons_false {p : Line → Bool} {x : Line} (hp : p x = false) (ls : List Line) :
    findIdxAux p (x :: ls) = (findIdxAux p ls).map (· + 1) := by
  simp [findIdxAux, hp]

theorem findIdxAux_eq_none {p : Line → Bool} {ls : List Line} :
    findIdxAux p ls = none ↔ ∀ l ∈ ls, p l = false := by
  induction ls with
  | nil => simp [findIdxAux]
  | cons x ls ih =>
    cases hp : p x with
    | true =>
      rw [findIdxAux_cons_true hp]
      simp [hp]
    | false =>
      rw [findIdxAux_cons_false hp]
      simp [hp, Option.map_eq_none', ih]

theorem findIdxAux_ne_none {p : Line → Bool} {ls : List Line} {l : Line}
    (hl : l ∈ ls) (hp : p l = true) : findIdxAux p ls ≠ none := by
  intro h
  rw [findIdxAux_eq_none] at h
  rw [h l hl] at hp
  cases hp

theorem findIdxAux_some_lt {p : Line → Bool} {ls : List Line} {i : Nat}
    (h : findIdxAux p ls = some i) : i < ls.length := by
  induction ls generalizing i with
  | nil => simp [findIdxAux] at h
  | cons x ls ih =>
    cases hp : p x with
    | true =>
      rw [findIdxAux_cons_true hp] at h
      cases h
      simp
    | false =>
      rw [findIdxAux_cons_false hp] at h
      cases hf : findIdxAux p ls with
      | none => rw [hf] at h; cases h
      | some j =>
        rw [hf] at h
        cases h
        simpa using ih hf

theorem findIdxAux_some_pred {p : Line → Bool} {ls : List Line} {i : Nat}
    (h : findIdxAux p ls = some i) : p (getLine ls i) = true := by
  induction ls generalizing i with
  | nil => simp [findIdxAux] at h
  | cons x ls ih =>
    cases hp : p x with
    | true =>
      rw [findIdxAux_cons_true hp] at h
      cases h
      exact hp
    | false =>
      rw [findIdxAux_cons_false hp] at h
      cases hf : findIdxAux p ls with
      | none => rw [hf] at h; cases h
      | some j =>
        rw [hf] at h
        cases h
        rw [getLine_cons_succ]
        exact ih hf

theorem findIdxAux_some_min {p : Line → Bool} {ls : List Line} {i : Nat}
    (h : findIdxAux p ls = some i) : ∀ j, j < i → p (getLine ls j) = false := by
  induction ls generalizing i with
  | nil => simp [findIdxAux] at h
  | cons x ls ih =>
    cases hp : p x with
    | true =>
      rw [findIdxAux_cons_true hp] at h
      cases h
      intro j hj
      cases hj
    | false =>
      rw [findIdxAux_cons_false hp] at h
      cases hf : findIdxAux p ls with
      | none => rw [hf] at h; cases h
      | some k =>
        rw [hf] at h
        cases h
        intro j hj
        cases j with
        | zero => exact hp
        | succ j =>
          rw [getLine_cons_succ]
          exact ih hf j (Nat.lt_of_succ_lt_succ hj)

theorem findIdxAux_congr {p q : Line → Bool} {ls : List Line} (ms : List Line)
    (hlen : ls.length = ms.length)
    (h : ∀ i, i < ls.length → p (getLine ls i) = q (getLine ms i)) :
    findIdxAux p ls = findIdxAux q ms := by
  induction ls generalizing ms with
  | nil =>
    cases ms with
    | nil => rfl
    | cons y ms => cases hlen
  | cons x ls ih =>
    cases ms with
    | nil => cases hlen
    | cons y ms =>
      have h0 : p x = q y := h 0 (Nat.succ_pos _)
      have hrest : ∀ i, i < ls.length → p (getLine ls i) = q (getLine ms i) := by
        intro i hi
        have := h (i + 1) (Nat.succ_lt_succ hi)
        rwa [getLine_cons_succ, getLine_cons_succ] at this
      cases hp : p x with
      | true =>
        rw [findIdxAux_cons_true hp, findIdxAux_cons_true (h0 ▸ hp)]
      | false =>
        rw [findIdxAux_cons_false hp, findIdxAux_cons_false (h0 ▸ hp)]
        rw [ih ms (Nat.succ.inj hlen) hrest]

/-! ### Lemmas about the recency update -/

theorem bump_valid (p : Nat) (l : Line) : (bump p l).valid = l.valid := by
  unfold bump
  split <;> rfl

theorem bump_tag (p : Nat) (l : Line) : (bump p l).tag = l.tag := by
  unfold bump
  split <;> rfl

theorem bump_zero (l : Line) : bump 0 l = l := by
  unfold bump
  simp

theorem bump_defLine (p : Nat) : bump p defLine = defLine := by
  unfold bump defLine
  simp

theorem line_lru_zero_eta {l : Line} (h : l.lru = 0) : ({ l with lru := 0 } : Line) = l := by
  cases l
  simp_all

theorem length_lru_update (ls : List Line) (t : Nat) : (lru_update ls t).length = ls.length := by
  simp [lru_update]

theorem lru_update_valid (ls : List Line) (t j : Nat) :
    (getLine (lru_update ls t) j).valid = (getLine ls j).valid := by
  unfold lru_update
  by_cases hj : t = j
  · subst hj
    by_cases ht : t < ls.length
    · rw [getLine_set_self (by simpa using ht)]
    · rw [List.set_eq_of_length_le (by simpa using Nat.le_of_not_lt ht)]
      rw [getLine_map (bump_defLine _)]
      exact bump_valid _ _
  · rw [getLine_set_ne hj, getLine_map (bump_defLine _)]
    exact bump_valid _ _

theorem lru_update_tag (ls : List Line) (t j : Nat) :
    (getLine (lru_update ls t) j).tag = (getLine ls j).tag := by
  unfold lru_update
  by_cases hj : t = j
  · subst hj
    by_cases ht : t < ls.length
    · rw [getLine_set_self (by simpa using ht)]
    · rw [List.set_eq_of_length_le (by simpa using Nat.le_of_not_lt ht)]
      rw [getLine_map (bump_defLine _)]
      exact bump_tag _ _
  · rw [getLine_set_ne hj, getLine_map (bump_defLine _)]
    exact bump_tag _ _

theorem getLine_lru_zero {ls : List Line} (h : ∀ l ∈ ls, l.lru = 0) (i : Nat) :
    (getLine ls i).lru = 0 := by
  by_cases hi : i < ls.length
  · exact h _ (getLine_mem hi)
  · rw [getLine_oob (Nat.le_of_not_lt hi)]
    rfl

theorem lru_update_id_of_zero {ls : List Line} (h : ∀ l ∈ ls, l.lru = 0) (t : Nat) :
    lru_update ls t = ls := by
  unfold lru_update
  rw [getLine_lru_zero h t]
  rw [List.map_id'' bump_zero]
  rw [line_lru_zero_eta (getLine_lru_zero h t)]
  exact set_getD_self ls t defLine

theorem set_zero_of_zero {ls : List Line} (h : ∀ l ∈ ls, l.lru = 0) {x : Line}
    (hx : x.lru = 0) (i : Nat) : ∀ l ∈ ls.set i x, l.lru = 0 := by
  intro l hl
  rcases List.mem_or_eq_of_mem_set hl with h' | rfl
  · exact h _ h'
  · exact hx

/-! ### Branch equations for the access body -/

theorem accessLines_hit {E tg : Nat} {lines : List Line} {i : Nat}
    (h : findHit tg lines = some i) :
    accessLines E tg lines = (Outcome.Hit, lru_update lines i) := by
  unfold accessLines
  rw [h]

theorem accessLines_fill {E tg : Nat} {lines : List Line} {i : Nat}
    (h1 : findHit tg lines = none) (h2 : findEmpty lines = some i) :
    accessLines E tg lines =
      (Outcome.MissFill,
        lru_update (lines.set i { getLine lines i with valid := true, tag := tg }) i) := by
  unfold accessLines
  rw [h1, h2]

theorem accessLines_evict {E tg : Nat} {lines : List Line}
    (h1 : findHit tg lines = none) (h2 : findEmpty lines = none) :
    accessLines E tg lines =
      (Outcome.MissEvict,
        lru_update
          (lines.set (find_lru E lines)
            { getLine lines (find_lru E lines) with tag := tg })
          (find_lru E lines)) := by
  unfold accessLines
  rw [h1, h2]

theorem accessLines_hit_inv {E tg : Nat} {lines : List Line}
    (h : (accessLines E tg lines).1 = Outcome.Hit) :
    ∃ i, findHit tg lines = some i := by
  cases h1 : findHit tg lines with
  | some i => exact ⟨i, rfl⟩
  | none =>
    cases h2 : findEmpty lines with
    | some i => rw [accessLines_fill h1 h2] at h; cases h
    | none => rw [accessLines_evict h1 h2] at h; cases h

theorem length_accessLines (E tg : Nat) (lines : List Line) :
    (accessLines E tg lines).2.length = lines.length := by
  cases h1 : findHit tg lines with
  | some i => rw [accessLines_hit h1]; simp [length_lru_update]
  | none =>
    cases h2 : findEmpty lines with
    | some i => rw [accessLines_fill h1 h2]; simp [length_lru_update]
    | none => rw [accessLines_evict (E := E) h1 h2]; simp [length_lru_update]

theorem accessLines_zero {E tg : Nat} {lines : List Line} (h : ∀ l ∈ lines, l.lru = 0) :
    ∀ l ∈ (accessLines E tg lines).2, l.lru = 0 := by
  cases h1 : findHit tg lines with
  | some i =>
    rw [accessLines_hit h1, lru_update_id_of_zero h]
    exact h
  | none =>
    cases h2 : findEmpty lines with
    | some i =>
      rw [accessLines_fill h1 h2]
      have hset := set_zero_of_zero h (x := { getLine lines i with valid := true, tag := tg })
        (getLine_lru_zero h i) i
      rw [lru_update_id_of_zero hset]
      exact hset
    | none =>
      rw [accessLines_evict (E := E) h1 h2]
      have hset := set_zero_of_zero h (x := { getLine lines (find_lru E lines) with tag := tg })
        (getLine_lru_zero h (find_lru E lines)) (find_lru E lines)
      rw [lru_update_id_of_zero hset]
      exact hset

/-! ### Cache-level facts -/

theorem access_fst (c : Cache) (a : Nat) :
    (access c a).1 = (accessLines c.E (blockTag c a) (targetLines c a)).1 := rfl

theorem access_snd_sets (c : Cache) (a : Nat) :
    (access c a).2.sets =
      c.sets.set (setIndex c a) (accessLines c.E (blockTag c a) (targetLines c a)).2 := rfl

theorem access_params (c : Cache) (a : Nat) :
    (access c a).2.s = c.s ∧ (access c a).2.E = c.E ∧ (access c a).2.b = c.b ∧
      (access c a).2.S = c.S :=
  ⟨rfl, rfl, rfl, rfl⟩

theorem runList_params (c : Cache) (as : List Nat) :
    (runList c as).s = c.s ∧ (runList c as).E = c.E ∧ (runList c as).b = c.b ∧
      (runList c as).S = c.S := by
  induction as generalizing c with
  | nil => exact ⟨rfl, rfl, rfl, rfl⟩
  | cons a as ih => exact ih (access c a).2

theorem simCache_params (s E b : Nat) (as : List Nat) :
    (simCache s E b as).s = s ∧ (simCache s E b as).E = E ∧ (simCache s E b as).b = b ∧
      (simCache s E b as).S = 2 ^ s :=
  runList_params (makecache s E b) as

theorem setIndex_lt_length {c : Cache} (h : WF c) (a : Nat) :
    setIndex c a < c.sets.length := by
  obtain ⟨h1, h2, _⟩ := h
  rw [h2, h1]
  unfold setIndex
  rw [Nat.and_pow_two_sub_one_eq_mod]
  exact Nat.mod_lt _ (Nat.two_pow_pos _)

theorem targetLines_mem {c : Cache} (h : WF c) (a : Nat) : targetLines c a ∈ c.sets :=
  getD_mem (setIndex_lt_length h a)

theorem length_targetLines {c : Cache} (h : WF c) (a : Nat) :
    (targetLines c a).length = c.E :=
  h.2.2 _ (targetLines_mem h a)

theorem targetLines_zero {c : Cache} (h : allLruZero c) (a : Nat) :
    ∀ l ∈ targetLines c a, l.lru = 0 := by
  intro l hl
  by_cases hsi : setIndex c a < c.sets.length
  · exact h _ (getD_mem hsi) _ hl
  · rw [targetLines, getD_oob (Nat.le_of_not_lt hsi)] at hl
    cases hl

theorem WF_access {c : Cache} (h : WF c) (a : Nat) : WF (access c a).2 := by
  refine ⟨h.1, ?_, ?_⟩
  · show (c.sets.set (setIndex c a) _).length = c.S
    rw [List.length_set]
    exact h.2.1
  · intro st hst
    rw [access_snd_sets] at hst
    rcases List.mem_or_eq_of_mem_set hst with h' | rfl
    · exact h.2.2 _ h'
    · show (accessLines c.E (blockTag c a) (targetLines c a)).2.length = c.E
      rw [length_accessLines]
      exact length_targetLines h a

theorem WF_runList {c : Cache} (h : WF c) (as : List Nat) : WF (runList c as) := by
  induction as generalizing c with
  | nil => exact h
  | cons a as ih => exact ih (WF_access h a)

theorem WF_makecache (s E b : Nat) : WF (makecache s E b) := by
  refine ⟨rfl, by simp [makecache], ?_⟩
  intro st hst
  rw [List.eq_of_mem_replicate hst]
  simp [makecache]

theorem WF_simCache (s E b : Nat) (as : List Nat) : WF (simCache s E b as) :=
  WF_runList (WF_makecache s E b) as

theorem allLruZero_access {c : Cache} (h : allLruZero c) (a : Nat) :
    allLruZero (access c a).2 := by
  intro st hst
  rw [access_snd_sets] at hst
  rcases List.mem_or_eq_of_mem_set hst with h' | rfl
  · exact h _ h'
  · exact accessLines_zero (targetLines_zero h a)

theorem allLruZero_runList {c : Cache} (h : allLruZero c) (as : List Nat) :
    allLruZero (runList c as) := by
  induction as generalizing c with
  | nil => exact h
  | cons a as ih => exact ih (allLruZero_access h a)

theorem allLruZero_makecache (s E b : Nat) : allLruZero (makecache s E b) := by
  intro st hst l hl
  rw [List.eq_of_mem_replicate hst] at hl
  rw [List.eq_of_mem_replicate hl]
  rfl

theorem allLruZero_simCache (s E b : Nat) (as : List Nat) :
    allLruZero (simCache s E b as) :=
  allLruZero_runList (allLruZero_makecache s E b) as

theorem access_hit_id {c : Cache} (h : allLruZero c) {a : Nat}
    (hh : (access c a).1 = Outcome.Hit) : (access c a).2 = c := by
  obtain ⟨i, hi⟩ := accessLines_hit_inv (E := c.E) (by rw [← access_fst]; exact hh)
  have hsnd : (accessLines c.E (blockTag c a) (targetLines c a)).2 = targetLines c a := by
    rw [accessLines_hit hi]
    exact lru_update_id_of_zero (targetLines_zero h a) i
  show { c with sets := c.sets.set (setIndex c a) (accessLines c.E (blockTag c a) (targetLines c a)).2 } = c
  rw [hsnd]
  rw [targetLines, set_getD_self]

/-! ### Further helper lemmas -/

theorem lru_update_id_of_touched_zero {ls : List Line} {t : Nat}
    (h : (getLine ls t).lru = 0) : lru_update ls t = ls := by
  unfold lru_update
  rw [h, List.map_id'' bump_zero, line_lru_zero_eta h]
  exact set_getD_self ls t defLine

theorem foldr_max_zero {xs : List Nat} (h : ∀ x ∈ xs, x = 0) : xs.foldr max 0 = 0 := by
  induction xs with
  | nil => rfl
  | cons x xs ih =>
    have hx := h x (by simp)
    have hxs := ih (fun y hy => h y (by simp [hy]))
    simp [List.foldr_cons, hx, hxs]

theorem mem_validRecencies {st : List Line} {r : Nat} (h : r ∈ validRecencies st) :
    ∃ l ∈ st, l.valid = true ∧ l.lru = r := by
  unfold validRecencies at h
  obtain ⟨l, hl, rfl⟩ := List.mem_map.mp h
  exact ⟨l, (List.mem_filter.mp hl).1, (List.mem_filter.mp hl).2, rfl⟩

theorem find_lru_lt {E : Nat} {lines : List Line} (hE : 1 ≤ E) (hlen : lines.length = E) :
    find_lru E lines < E := by
  unfold find_lru
  cases hf : findIdxAux (fun l => l.lru == E - 1) lines with
  | none => exact hE
  | some j =>
    have := findIdxAux_some_lt hf
    rw [hlen] at this
    exact this

theorem accessLines_stores_tag {E : Nat} (tg : Nat) {lines : List Line}
    (hlen : lines.length = E) (hE : 1 ≤ E) :
    ∃ l ∈ (accessLines E tg lines).2, l.valid = true ∧ l.tag = tg := by
  cases h1 : findHit tg lines with
  | some i =>
    rw [accessLines_hit h1]
    have hlt : i < lines.length := findIdxAux_some_lt h1
    have hpred := findIdxAux_some_pred h1
    rw [Bool.and_eq_true] at hpred
    refine ⟨getLine (lru_update lines i) i,
      getLine_mem (by rw [length_lru_update]; exact hlt), ?_, ?_⟩
    · rw [lru_update_valid]
      exact hpred.1
    · rw [lru_update_tag]
      exact by simpa using hpred.2
  | none =>
    cases h2 : findEmpty lines with
    | some i =>
      rw [accessLines_fill h1 h2]
      have hlt : i < lines.length := findIdxAux_some_lt h2
      refine ⟨getLine (lru_update (lines.set i { getLine lines i with valid := true, tag := tg }) i) i,
        getLine_mem (by rw [length_lru_update, List.length_set]; exact hlt), ?_, ?_⟩
      · rw [lru_update_valid, getLine_set_self hlt]
      · rw [lru_update_tag, getLine_set_self hlt]
    | none =>
      rw [accessLines_evict (E := E) h1 h2]
      have hvalid : ∀ l ∈ lines, l.valid = true := by
        intro l hl
        have := findIdxAux_eq_none.mp h2 l hl
        simpa using this
      have hlt : find_lru E lines < lines.length := by
        rw [hlen]
        exact find_lru_lt hE hlen
      refine ⟨getLine (lru_update (lines.set (find_lru E lines)
          { getLine lines (find_lru E lines) with tag := tg }) (find_lru E lines)) (find_lru E lines),
        getLine_mem (by rw [length_lru_update, List.length_set]; exact hlt), ?_, ?_⟩
      · rw [lru_update_valid, getLine_set_self hlt]
        show (getLine lines (find_lru E lines)).valid = true
        exact hvalid _ (getLine_mem hlt)
      · rw [lru_update_tag, getLine_set_self hlt]

theorem second_access_hit {c : Cache} (hwf : WF c) (hE : 1 ≤ c.E) (a : Nat) :
    (access (access c a).2 a).1 = Outcome.Hit := by
  have hlen := length_targetLines hwf a
  obtain ⟨l, hl, hv, ht⟩ := accessLines_stores_tag (blockTag c a) hlen hE
  have htl : targetLines (access c a).2 a = (accessLines c.E (blockTag c a) (targetLines c a)).2 := by
    show ((access c a).2.sets).getD (setIndex (access c a).2 a) [] = _
    rw [access_snd_sets]
    exact getD_set_self (setIndex_lt_length hwf a)
  have hfh : findHit (blockTag (access c a).2 a) (targetLines (access c a).2 a) ≠ none := by
    have hbt : blockTag (access c a).2 a = blockTag c a := rfl
    rw [hbt, htl]
    apply findIdxAux_ne_none hl
    simp [hv, ht]
  cases hfind : findHit (blockTag (access c a).2 a) (targetLines (access c a).2 a) with
  | none => exact absurd hfind hfh
  | some i =>
    rw [access_fst, accessLines_hit hfind]

theorem hit_then_hit {c c2 : Cache} {a : Nat}
    (h : access c a = (Outcome.Hit, c2)) : access c2 a = (Outcome.Hit, c2) := by
  have h1 : (access c a).1 = Outcome.Hit := by rw [h]
  have h2 : (access c a).2 = c2 := by rw [h]
  obtain ⟨i, hi⟩ := accessLines_hit_inv (E := c.E) (by rw [← access_fst]; exact h1)
  have hlt : i < (targetLines c a).length := findIdxAux_some_lt hi
  have hsi : setIndex c a < c.sets.length := by
    by_contra hs
    rw [targetLines, getD_oob (Nat.le_of_not_lt hs)] at hlt
    exact absurd hlt (by simp)
  have hsets : c2.sets = c.sets.set (setIndex c a) (lru_update (targetLines c a) i) := by
    rw [← h2, access_snd_sets, accessLines_hit hi]
  have hs2 : c2.s = c.s := by rw [← h2]; rfl
  have hE2 : c2.E = c.E := by rw [← h2]; rfl
  have hb2 : c2.b = c.b := by rw [← h2]; rfl
  have hbt : blockTag c2 a = blockTag c a := by unfold blockTag; rw [hs2, hb2]
  have hsi2 : setIndex c2 a = setIndex c a := by unfold setIndex; rw [hs2, hb2]
  have htl : targetLines c2 a = lru_update (targetLines c a) i := by
    rw [targetLines, hsi2, hsets, getD_set_self hsi]
  have hfind : findHit (blockTag c2 a) (targetLines c2 a) = some i := by
    rw [hbt, htl]
    unfold findHit at hi ⊢
    rw [findIdxAux_congr (targetLines c a) (length_lru_update _ _) ?_]
    · exact hi
    · intro j hj
      show ((getLine (lru_update (targetLines c a) i) j).valid &&
          ((getLine (lru_update (targetLines c a) i) j).tag == blockTag c a)) =
        ((getLine (targetLines c a) j).valid &&
          ((getLine (targetLines c a) j).tag == blockTag c a))
      rw [lru_update_valid, lru_update_tag]
  have htouched : (getLine (targetLines c2 a) i).lru = 0 := by
    rw [htl]
    unfold lru_update
    rw [getLine_set_self (by simpa using hlt)]
  have hupd : lru_update (targetLines c2 a) i = targetLines c2 a :=
    lru_update_id_of_touched_zero htouched
  show ((accessLines c2.E (blockTag c2 a) (targetLines c2 a)).1,
      { c2 with sets := c2.sets.set (setIndex c2 a) (accessLines c2.E (blockTag c2 a) (targetLines c2 a)).2 }) =
    (Outcome.Hit, c2)
  rw [accessLines_hit hfind, hupd, hsi2, htl, hsets, List.set_set, ← hsets]

/-! ### Claim theorems -/

/-- C1: the claimed recency invariant fails on the code.  With `s = 1`,
`E = 2`, `b = 1`, after the two accesses `[0x0, 0x4]` (both mapping to set
0, with distinct tags 0 and 1), set 0 holds two valid lines that both carry
recency 0, so the recency values are `{0, 0}` and not `{0, 1}`: the fill
path of `access_cache` marks the line valid before `lru_update`, whose bump
only ages lines strictly younger than the filled line's stale recency 0,
so no recency ever leaves 0. -/
theorem C1_recency_invariant_violated :
    ¬ RecencyInvariant (simCache 1 2 1 [0, 4]) ∧
    (∀ l ∈ targetLines (simCache 1 2 1 [0, 4]) 0, l.valid = true ∧ l.lru = 0) ∧
    (targetLines (simCache 1 2 1 [0, 4]) 0).length = 2 :=
  ⟨by decide, by decide, by decide⟩

/-- C2: the LRU law fails on the code.  With `s = 1`, `E = 2`, `b = 1`,
the addresses `[0x0, 0x4, 0x0, 0x8]` access tags `A = 0`, `B = 1`,
`A`, `C = 2`, all in set 0.  The access with tag `C` is a `MissEvict`,
but it evicts the line holding `A` (tag 0 is gone afterwards) and keeps
the line holding `B` (tag 1 survives): all recencies are still 0, so
`find_lru` finds no line with recency `E - 1` and defaults to index 0,
which holds `A`. -/
theorem C2_lru_law_violated :
    (access (simCache 1 2 1 [0, 4, 0]) 8).1 = Outcome.MissEvict ∧
    (∃ l ∈ targetLines (access (simCache 1 2 1 [0, 4, 0]) 8).2 8, l.valid = true ∧ l.tag = 1) ∧
    ¬ (∃ l ∈ targetLines (access (simCache 1 2 1 [0, 4, 0]) 8).2 8, l.valid = true ∧ l.tag = 0) :=
  ⟨by decide, by decide, by decide⟩

/-- C4 counterexample: the claimed acceptance/rejection conditions do not
match the code.  The triple `(s, E, b) = (0, 1, 1)` satisfies the claimed
acceptance condition but `main` rejects it (its check `s == 0` fires),
and `(1, -1, 1)` satisfies the claimed rejection condition (`E < 1`) but
passes the code's check (only `E == 0` is tested). -/
theorem C4_counterexample :
    (claim_accepts 0 1 1 ∧ config_accepted 0 1 1 = false) ∧
    (claim_rejects 1 (-1) 1 ∧ config_accepted 1 (-1) 1 = true) := by
  unfold claim_accepts claim_rejects config_accepted
  decide

/-- C4 (amended): the run proceeds past the argument check to `makecache`
exactly when none of `s`, `E`, `b` is zero; no `s + b ≤ 64` bound is
enforced and negative values are accepted. -/
theorem C4_config_check (s E b : Int) :
    config_accepted s E b = true ↔ s ≠ 0 ∧ E ≠ 0 ∧ b ≠ 0 := by
  unfold config_accepted
  simp [and_assoc]

/-- C4 witness: the amended acceptance condition applied at the concrete
configuration `(1, 2, 1)`. -/
theorem C4_config_check_witness : config_accepted 1 2 1 = true :=
  (C4_config_check 1 2 1).mpr ⟨by decide, by decide, by decide⟩

/-- C6: address decomposition.  On every cache reached from a valid
construction, the set index is `(a >>> b) % 2^s` (the code's mask by
`(1 << s) - 1`), the tag is `a >>> (s + b)`, and two addresses that agree
above the block-offset bits are treated identically by `access`. -/
theorem C6_address_decomposition (s E b : Nat) (hE : 1 ≤ E) (hsb : s + b ≤ 64)
    (as : List Nat) (a a' : Nat) :
    setIndex (simCache s E b as) a = (a >>> b) % 2 ^ s ∧
    blockTag (simCache s E b as) a = a >>> (s + b) ∧
    (a >>> b = a' >>> b → access (simCache s E b as) a = access (simCache s E b as) a') := by
  obtain ⟨hs, hEp, hb, hS⟩ := simCache_params s E b as
  refine ⟨?_, ?_, ?_⟩
  · unfold setIndex
    rw [hs, hb, Nat.and_pow_two_sub_one_eq_mod]
  · unfold blockTag
    rw [hs, hb]
  · intro hshift
    have h1 : setIndex (simCache s E b as) a = setIndex (simCache s E b as) a' := by
      unfold setIndex
      rw [hb, hshift]
    have h2 : blockTag (simCache s E b as) a = blockTag (simCache s E b as) a' := by
      unfold blockTag
      rw [hs, hb, Nat.add_comm s b, Nat.shiftRight_add, Nat.shiftRight_add, hshift]
    unfold access targetLines
    rw [h1, h2]

/-- C6 witness: with `b = 1`, the addresses 4 and 5 differ only in the
block-offset bit and produce identical accesses. -/
theorem C6_witness :
    (4 >>> 1 = 5 >>> 1) ∧
    access (simCache 1 2 1 []) 4 = access (simCache 1 2 1 []) 5 :=
  ⟨by decide, (C6_address_decomposition 1 2 1 (by decide) (by decide) [] 4 5).2.2 (by decide)⟩

/-- C8: idempotence of a hit.  On any cache reached from a valid
construction, if an access returns `Hit` and leaves state `c2`, then
immediately accessing the same address again returns `Hit` and leaves
the entire cache state unchanged. -/
theorem C8_hit_idempotent (s E b : Nat) (as : List Nat) (a : Nat) (c2 : Cache)
    (h : access (simCache s E b as) a = (Outcome.Hit, c2)) :
    access c2 a = (Outcome.Hit, c2) :=
  hit_then_hit h

/-- C8 witness: after filling address 0, accessing 0 hits, and accessing
it again hits and leaves the state unchanged. -/
theorem C8_witness :
    (access (simCache 1 1 1 [0]) 0 = (Outcome.Hit, (access (simCache 1 1 1 [0]) 0).2)) ∧
    access (access (simCache 1 1 1 [0]) 0).2 0 = (Outcome.Hit, (access (simCache 1 1 1 [0]) 0).2) :=
  ⟨by decide, C8_hit_idempotent 1 1 1 [0] 0 _ (by decide)⟩

/-- C10: hit frame property.  For every cache state and address, if the
access returns `Hit`, every set other than the target set is completely
unchanged, and within the target set the `valid` and `tag` fields of
every line are unchanged (only recency fields may change). -/
theorem C10_hit_frame (c : Cache) (a : Nat) (h : (access c a).1 = Outcome.Hit) :
    (∀ k, k ≠ setIndex c a → (access c a).2.sets.getD k [] = c.sets.getD k []) ∧
    (∀ k j, (getLine ((access c a).2.sets.getD k []) j).valid = (getLine (c.sets.getD k []) j).valid ∧
      (getLine ((access c a).2.sets.getD k []) j).tag = (getLine (c.sets.getD k []) j).tag) := by
  obtain ⟨i, hi⟩ := accessLines_hit_inv (E := c.E) (by rw [← access_fst]; exact h)
  have hsets : (access c a).2.sets = c.sets.set (setIndex c a) (lru_update (targetLines c a) i) := by
    rw [access_snd_sets, accessLines_hit hi]
  constructor
  · intro k hk
    rw [hsets, getD_set_ne (fun h' => hk h'.symm)]
  · intro k j
    by_cases hk : k = setIndex c a
    · subst hk
      by_cases hin : setIndex c a < c.sets.length
      · rw [hsets, getD_set_self hin]
        exact ⟨lru_update_valid _ _ _, lru_update_tag _ _ _⟩
      · rw [hsets, List.set_eq_of_length_le (Nat.le_of_not_lt hin)]
        exact ⟨rfl, rfl⟩
    · rw [hsets, getD_set_ne (fun h' => hk h'.symm)]
      exact ⟨rfl, rfl⟩

/-- C10 witness: a concrete hit, with the frame property for the sets
away from the target set. -/
theorem C10_witness :
    (access (simCache 1 1 1 [0]) 0).1 = Outcome.Hit ∧
    (∀ k, k ≠ setIndex (simCache 1 1 1 [0]) 0 →
      (access (simCache 1 1 1 [0]) 0).2.sets.getD k [] = (simCache 1 1 1 [0]).sets.getD k []) :=
  ⟨by decide, (C10_hit_frame (simCache 1 1 1 [0]) 0 (by decide)).1⟩

theorem no_match_findHit_none {lines : List Line} {tg : Nat}
    (hno : ¬ ∃ l ∈ lines, l.valid = true ∧ l.tag = tg) : findHit tg lines = none := by
  unfold findHit
  apply findIdxAux_eq_none.mpr
  intro l hl
  show (l.valid && (l.tag == tg)) = false
  cases hx : (l.valid && (l.tag == tg)) with
  | false => rfl
  | true =>
    rw [Bool.and_eq_true] at hx
    exact absurd ⟨l, hl, hx.1, by simpa using hx.2⟩ hno

theorem all_valid_findEmpty_none {lines : List Line} (hall : ∀ l ∈ lines, l.valid = true) :
    findEmpty lines = none := by
  unfold findEmpty
  apply findIdxAux_eq_none.mpr
  intro l hl
  show (!l.valid) = false
  rw [hall l hl]
  rfl

/-- C3: eviction selection.  Whenever an access on a reachable cache takes
the eviction branch (no tag matched and no invalid line), the index chosen
by `find_lru` is exactly the first index carrying the maximum recency among
the valid lines of the target set (ties broken by lowest index). -/
theorem C3_eviction_selects_first_max (s E b : Nat) (hE : 1 ≤ E) (as : List Nat) (a : Nat)
    (hmiss : findHit (blockTag (simCache s E b as) a) (targetLines (simCache s E b as) a) = none)
    (hfull : findEmpty (targetLines (simCache s E b as) a) = none) :
    (access (simCache s E b as) a).1 = Outcome.MissEvict ∧
    find_lru (simCache s E b as).E (targetLines (simCache s E b as) a) =
      lruSpecIdx (targetLines (simCache s E b as) a) := by
  have hwf := WF_simCache s E b as
  have hzero := targetLines_zero (allLruZero_simCache s E b as) a
  have hEeq : (simCache s E b as).E = E := (simCache_params s E b as).2.1
  have hlen : (targetLines (simCache s E b as) a).length = E := by
    rw [length_targetLines hwf a, hEeq]
  have hvalid : ∀ l ∈ targetLines (simCache s E b as) a, l.valid = true := by
    intro l hl
    simpa using findIdxAux_eq_none.mp hfull l hl
  constructor
  · rw [access_fst, accessLines_evict hmiss hfull]
  · rw [hEeq]
    cases hlines : targetLines (simCache s E b as) a with
    | nil =>
      rw [hlines] at hlen
      simp at hlen
      omega
    | cons l0 rest =>
      rw [hlines] at hzero hvalid
      have hl0v : l0.valid = true := hvalid l0 (List.mem_cons_self _ _)
      have hl0z : l0.lru = 0 := hzero l0 (List.mem_cons_self _ _)
      have hmax : maxRecency (l0 :: rest) = 0 := by
        unfold maxRecency
        apply foldr_max_zero
        intro x hx
        obtain ⟨l, hl, _, hlru⟩ := mem_validRecencies hx
        rw [← hlru]
        exact hzero l hl
      have hspec : lruSpecIdx (l0 :: rest) = 0 := by
        unfold lruSpecIdx
        rw [findIdxAux_cons_true (by simp [hl0v, hl0z, hmax])]
        rfl
      have hflu : find_lru E (l0 :: rest) = 0 := by
        unfold find_lru
        by_cases hE1 : E = 1
        · rw [findIdxAux_cons_true (by simp [hE1, hl0z])]
          rfl
        · rw [findIdxAux_eq_none.mpr ?_]
          · rfl
          · intro l hl
            have hz := hzero l hl
            show (l.lru == E - 1) = false
            simp [hz]
            omega
      rw [hflu, hspec]

/-- C3 witness: a concrete full-set miss, where the code's choice equals
the first maximum-recency index. -/
theorem C3_witness :
    (1 ≤ 2 ∧
      findHit (blockTag (simCache 1 2 1 [0, 4]) 8) (targetLines (simCache 1 2 1 [0, 4]) 8) = none ∧
      findEmpty (targetLines (simCache 1 2 1 [0, 4]) 8) = none) ∧
    ((access (simCache 1 2 1 [0, 4]) 8).1 = Outcome.MissEvict ∧
      find_lru (simCache 1 2 1 [0, 4]).E (targetLines (simCache 1 2 1 [0, 4]) 8) =
        lruSpecIdx (targetLines (simCache 1 2 1 [0, 4]) 8)) :=
  ⟨⟨by decide, by decide, by decide⟩,
    C3_eviction_selects_first_max 1 2 1 (by decide) [0, 4] 8 (by decide) (by decide)⟩

/-- C7: Modify semantics.  `runsim` processes a `Modify` event as two
consecutive `access` calls on the same address, and on every reachable
cache of a valid construction (`E ≥ 1`) the second call returns `Hit`:
a `Modify` contributes at most one miss, never two. -/
theorem C7_modify_second_hit (s E b : Nat) (hE : 1 ≤ E) (as : List Nat) (a : Nat) :
    (stepEvent (simCache s E b as) Op.modify a).1 =
      [(access (simCache s E b as) a).1, Outcome.Hit] ∧
    (access (access (simCache s E b as) a).2 a).1 = Outcome.Hit := by
  have hwf := WF_simCache s E b as
  have hE' : 1 ≤ (simCache s E b as).E := by
    rw [(simCache_params s E b as).2.1]
    exact hE
  have h2 := second_access_hit hwf hE' a
  refine ⟨?_, h2⟩
  show [(access (simCache s E b as) a).1, (access (access (simCache s E b as) a).2 a).1] =
    [(access (simCache s E b as) a).1, Outcome.Hit]
  rw [h2]

/-- C7 witness: a Modify on a previously unseen address yields the miss
outcome followed by a hit. -/
theorem C7_witness :
    1 ≤ 1 ∧
    ((stepEvent (simCache 1 1 1 []) Op.modify 0).1 =
        [(access (simCache 1 1 1 []) 0).1, Outcome.Hit] ∧
      (access (access (simCache 1 1 1 []) 0).2 0).1 = Outcome.Hit) :=
  ⟨by decide, C7_modify_second_hit 1 1 1 (by decide) [] 0⟩

/-- C9: totality of access.  On every reachable cache of a valid
construction, the computed set index is below `S`, every line index
produced by the hit scan or the empty scan is below `E`, the eviction
index returned by `find_lru` is below `E`, and the resulting cache is
again well-formed. -/
theorem C9_access_total (s E b : Nat) (hE : 1 ≤ E) (hsb : s + b ≤ 64) (as : List Nat) (a : Nat) :
    setIndex (simCache s E b as) a < (simCache s E b as).S ∧
    (∀ i, findHit (blockTag (simCache s E b as) a) (targetLines (simCache s E b as) a) = some i →
      i < (simCache s E b as).E) ∧
    (∀ i, findEmpty (targetLines (simCache s E b as) a) = some i → i < (simCache s E b as).E) ∧
    find_lru (simCache s E b as).E (targetLines (simCache s E b as) a) < (simCache s E b as).E ∧
    WF (access (simCache s E b as) a).2 := by
  have hwf := WF_simCache s E b as
  have hlen := length_targetLines hwf a
  refine ⟨?_, ?_, ?_, ?_, WF_access hwf a⟩
  · have h := setIndex_lt_length hwf a
    rwa [hwf.2.1] at h
  · intro i hi
    unfold findHit at hi
    have h := findIdxAux_some_lt hi
    rwa [hlen] at h
  · intro i hi
    unfold findEmpty at hi
    have h := findIdxAux_some_lt hi
    rwa [hlen] at h
  · apply find_lru_lt ?_ hlen
    rw [(simCache_params s E b as).2.1]
    exact hE

/-- C9 witness: the totality statement applied at a concrete reachable
cache. -/
theorem C9_witness :
    (1 ≤ 2 ∧ 1 + 1 ≤ 64) ∧ WF (access (simCache 1 2 1 [0]) 5).2 :=
  ⟨⟨by decide, by decide⟩, (C9_access_total 1 2 1 (by decide) (by decide) [0] 5).2.2.2.2⟩

/-- C5: the access algorithm and the counters.  On every reachable cache
of a valid construction: the access returns `Hit` exactly when some valid
line of the target set carries the block tag, and then the cache state is
unchanged (in particular only the hit line's recency is rewritten, to its
current value 0); if no line matches but an invalid line exists, the
access returns `MissFill` and the first invalid line becomes valid and
carries the tag; if no line matches and all lines are valid, the access
returns `MissEvict`.  The miss counter is incremented exactly on
`MissFill` and `MissEvict`, and the eviction counter exactly on
`MissEvict`. -/
theorem C5_access_algorithm (s E b : Nat) (hE : 1 ≤ E) (as : List Nat) (a : Nat) :
    ((access (simCache s E b as) a).1 = Outcome.Hit ↔
      ∃ l ∈ targetLines (simCache s E b as) a, l.valid = true ∧
        l.tag = blockTag (simCache s E b as) a) ∧
    ((access (simCache s E b as) a).1 = Outcome.Hit →
      (access (simCache s E b as) a).2 = simCache s E b as) ∧
    ((¬ ∃ l ∈ targetLines (simCache s E b as) a, l.valid = true ∧
        l.tag = blockTag (simCache s E b as) a) →
      (∃ l ∈ targetLines (simCache s E b as) a, l.valid = false) →
      (access (simCache s E b as) a).1 = Outcome.MissFill ∧
      ∃ j, j < (targetLines (simCache s E b as) a).length ∧
        (getLine (targetLines (simCache s E b as) a) j).valid = false ∧
        (∀ k, k < j → (getLine (targetLines (simCache s E b as) a) k).valid = true) ∧
        (getLine (targetLines (access (simCache s E b as) a).2 a) j).valid = true ∧
        (getLine (targetLines (access (simCache s E b as) a).2 a) j).tag =
          blockTag (simCache s E b as) a) ∧
    ((¬ ∃ l ∈ targetLines (simCache s E b as) a, l.valid = true ∧
        l.tag = blockTag (simCache s E b as) a) →
      (∀ l ∈ targetLines (simCache s E b as) a, l.valid = true) →
      (access (simCache s E b as) a).1 = Outcome.MissEvict) ∧
    (∀ o hits misses evictions,
      (applyCounters o hits misses evictions).2.1 =
        (if o = Outcome.Hit then misses else misses + 1) ∧
      (applyCounters o hits misses evictions).2.2 =
        (if o = Outcome.MissEvict then evictions + 1 else evictions)) := by
  have hwf := WF_simCache s E b as
  have hzero := allLruZero_simCache s E b as
  refine ⟨?_, ?_, ?_, ?_, ?_⟩
  · constructor
    · intro h
      obtain ⟨i, hi⟩ := accessLines_hit_inv (E := (simCache s E b as).E)
        (by rw [← access_fst]; exact h)
      unfold findHit at hi
      have hlt := findIdxAux_some_lt hi
      have hpred := findIdxAux_some_pred hi
      rw [Bool.and_eq_true] at hpred
      exact ⟨getLine (targetLines (simCache s E b as) a) i, getLine_mem hlt, hpred.1,
        by simpa using hpred.2⟩
    · rintro ⟨l, hl, hv, ht⟩
      have hne : findHit (blockTag (simCache s E b as) a)
          (targetLines (simCache s E b as) a) ≠ none := by
        unfold findHit
        apply findIdxAux_ne_none hl
        simp [hv, ht]
      cases hfind : findHit (blockTag (simCache s E b as) a)
          (targetLines (simCache s E b as) a) with
      | none => exact absurd hfind hne
      | some i => rw [access_fst, accessLines_hit hfind]
  · intro h
    exact access_hit_id hzero h
  · intro hno hinv
    have h1 := no_match_findHit_none hno
    obtain ⟨l, hl, hv⟩ := hinv
    have hne : findEmpty (targetLines (simCache s E b as) a) ≠ none := by
      unfold findEmpty
      apply findIdxAux_ne_none hl
      simp [hv]
    cases h2 : findEmpty (targetLines (simCache s E b as) a) with
    | none => exact absurd h2 hne
    | some j =>
      have h2aux : findIdxAux (fun l => !l.valid) (targetLines (simCache s E b as) a) = some j := h2
      have hjlt := findIdxAux_some_lt h2aux
      refine ⟨by rw [access_fst, accessLines_fill h1 h2], j, hjlt, ?_, ?_, ?_, ?_⟩
      · have := findIdxAux_some_pred h2aux
        simpa using this
      · intro k hk
        have := findIdxAux_some_min h2aux k hk
        simpa using this
      all_goals {
        have htl : targetLines (access (simCache s E b as) a).2 a =
            (accessLines (simCache s E b as).E (blockTag (simCache s E b as) a)
              (targetLines (simCache s E b as) a)).2 := by
          show ((access (simCache s E b as) a).2.sets).getD
            (setIndex (access (simCache s E b as) a).2 a) [] = _
          rw [access_snd_sets]
          exact getD_set_self (setIndex_lt_length hwf a)
        rw [htl]
        simp only [accessLines_fill h1 h2]
        first
        | (rw [lru_update_valid, getLine_set_self hjlt])
        | (rw [lru_update_tag, getLine_set_self hjlt])
      }
  · intro hno hall
    have h1 := no_match_findHit_none hno
    have h2 := all_valid_findEmpty_none hall
    rw [access_fst, accessLines_evict h1 h2]
  · intro o hits misses evictions
    cases o <;> simp [applyCounters]

/-- C5 witness: the hit characterisation applied at a concrete reachable
cache. -/
theorem C5_witness :
    1 ≤ 1 ∧
    ((access (simCache 1 1 1 []) 0).1 = Outcome.Hit ↔
      ∃ l ∈ targetLines (simCache 1 1 1 []) 0, l.valid = true ∧
        l.tag = blockTag (simCache 1 1 1 []) 0) :=
  ⟨by decide, (C5_access_algorithm 1 1 1 (by decide) [] 0).1⟩
